import Mathlib

/-!
Shallow embedding of the cateyes core — time-base resolution (`_get_time`,
`sfreq_to_times`), the discrete/continuous event codec
(`discrete_to_continuous`, `continuous_to_discrete`), the I-VT velocity
classifier (`classify_velocity`), the I-DT dispersion classifier
(`classify_dispersion`) and the MAD velocity-threshold estimator
(`mad_velocity_thresh`) from `cateyes/utils.py` and
`cateyes/classification.py` — together with theorems settling the
specification claims.  Real (float) quantities are modelled by exact
rationals; a float NaN outcome is modelled by `Option.none`, and a raised
Python exception by `Except.error` / an outer `Option.none`.
-/

namespace Cateyes

/-- Time argument accepted by the classifiers: either a scalar sampling rate
or an explicit timestamp sequence (`_get_time` dispatches on iterability of
its `time` argument). -/
inductive TimeArg where
  | rate (sfreq : ℚ)
  | stamps (ts : List ℚ)

/-- Embedding of `sfreq_to_times` (`utils.py`): builds
`np.arange(0, n/sfreq, 1/sfreq) + start_time`.  For any nonzero `sfreq` the
produced values are exactly `i / sfreq + start_time` for `i < n`; for
`sfreq = 0` the expression `len(gaze_array)/sfreq` raises
`ZeroDivisionError`, modelled as `.error ()`. -/
def sfreq_to_times (n : ℕ) (sfreq : ℚ) (start_time : ℚ) : Except Unit (List ℚ) :=
  if sfreq = 0 then .error () else
    .ok ((List.range n).map fun i => (i : ℚ) / sfreq + start_time)

/-- Embedding of `_get_time` (`utils.py`).  The sequence branch returns the
given timestamps and `sfreq = 1 / mean(diff(times))`; it raises nothing, and
a non-finite rate (mean of an empty diff array is NaN; `1/0` is inf) is
modelled as `none`.  The scalar branch treats `time` as the sampling rate and
synthesizes the times via `sfreq_to_times` (error for rate 0).  The
irregular-sampling warning of the source is a non-fatal advisory and is not
modelled. -/
def get_time (n : ℕ) (time : TimeArg) : Except Unit (List ℚ × Option ℚ) :=
  match time with
  | .stamps ts =>
      let ds := List.zipWith (fun a b => b - a) ts ts.tail
      .ok (ts, if ds = [] then none else
        let m := ds.sum / (ds.length : ℚ)
        if m = 0 then none else some (1 / m))
  | .rate q => (sfreq_to_times n q 0).map fun ts => (ts, some q)

/-- Insertion step of the stable sort used by `discrete_to_continuous`
(Python `sorted(..., key=lambda x: x[0])`): the new pair is placed before the
first kept pair with a strictly larger time, hence after all pairs with an
equal time. -/
def insEv (p : ℚ × String) : List (ℚ × String) → List (ℚ × String)
  | [] => [p]
  | q :: rest => if p.1 < q.1 then p :: q :: rest else q :: insEv p rest

/-- Stable sort of the `(time, value)` pairs by ascending time. -/
def sortEvents (l : List (ℚ × String)) : List (ℚ × String) :=
  l.foldl (fun acc p => insEv p acc) []

/-- One cell of the assignment loop of `discrete_to_continuous`: the source
iterates `for idx, (dis_time, dis_val) in enumerate(time_val_sorted)` and
overwrites `indices[times >= dis_time] = idx + 1` and
`values[times >= dis_time] = dis_val`; each array cell evolves independently
of the others, which this function reproduces for the sample at time `t`
(`k` is the 0-based enumeration counter, `cur` the cell's current
contents). -/
def assignFrom (t : ℚ) : ℕ → ℕ × Option String → List (ℚ × String) → ℕ × Option String
  | _, cur, [] => cur
  | k, cur, ev :: rest =>
      assignFrom t (k+1) (if ev.1 ≤ t then (k+1, some ev.2) else cur) rest

/-- Assignment layer of `discrete_to_continuous` (`utils.py`): sort the
discrete events by time, then fill index/value arrays over `times`.  Event
ordinals are the naturals `idx + 1`; a value cell that no event ever
assigned is `Option.none` here, and the numpy materialization of those unset
cells — `np.full((len(times),), None).astype(dtype)`, which turns them into
the string `'None'` truncated to the label dtype width — is applied on top
by `d2c_values`.  The source's same-length warning is non-fatal and not
modelled. -/
def discrete_to_continuous (times dts : List ℚ) (dvs : List String) :
    List ℕ × List (Option String) :=
  let sorted := sortEvents (dts.zip dvs)
  (times.map fun t => (assignFrom t 0 (0, none) sorted).1,
   times.map fun t => (assignFrom t 0 (0, none) sorted).2)

/-- Width of the numpy string dtype inferred by `np.array(discrete_values)`:
the maximum label length (numpy `<U{w}` counts unicode code points). -/
def dtypeWidth (dvs : List String) : ℕ :=
  dvs.foldr (fun s acc => max s.length acc) 0

/-- Truncation of a string to a numpy `<U{w}` dtype width. -/
def truncStr (w : ℕ) (s : String) : String := String.mk (s.data.take w)

/-- Value held by the unset cells of the `values` array of
`discrete_to_continuous` after the dtype cast: the source builds
`values = np.full((len(times),) + shape[1:], None).astype(dtype)` with
`dtype` taken from `np.array(discrete_values)`; for string labels the
object `None` is converted to `str(None) = 'None'` and truncated to the
dtype width.  It therefore equals a supplied label whenever some label is
`'None'` — or a truncation of it, such as `'N'` for width-1 dtypes. -/
def unsetSentinel (dvs : List String) : String :=
  truncStr (dtypeWidth dvs) "None"

/-- Values array of `discrete_to_continuous` as the caller sees it for
string labels: the assignment layer's unset cells (`none`) materialize to
`unsetSentinel dvs`, while assigned labels fit the dtype width (it is their
maximum length) and are stored unchanged. -/
def d2c_values (times dts : List ℚ) (dvs : List String) : List String :=
  (discrete_to_continuous times dts dvs).2.map fun o => o.getD (unsetSentinel dvs)

/-- Position (0-based, counting from `k`) and value of the last event in
`evs` whose time is at most `t`.  Spec-side helper: the claims characterize
`discrete_to_continuous` as assigning to each sample the ordinal and value of
the last sorted discrete event whose time is `≤ times[i]`. -/
def lastHit (t : ℚ) : ℕ → List (ℚ × String) → Option (ℕ × String)
  | _, [] => none
  | k, ev :: rest =>
      match lastHit t (k+1) rest with
      | some r => some r
      | none => if ev.1 ≤ t then some (k, ev.2) else none

/-- Minimum of a list of naturals, as `np.min` computes it; the source
raises on an empty array, which the claims never reach (`0` default). -/
def npMinN : List ℕ → ℕ
  | [] => 0
  | a :: l => l.foldl min a

/-- Walk of `continuous_to_discrete`: scan `zip(times, indices, values)` and
emit `(time, value)` whenever the index strictly exceeds the previous
`cur_idx`, then update `cur_idx` to the current index. -/
def c2dWalk : ℤ → List (ℚ × ℕ × Option String) → List (ℚ × Option String)
  | _, [] => []
  | cur, (t, i, v) :: rest =>
      if cur < (i : ℤ) then (t, v) :: c2dWalk (i : ℤ) rest else c2dWalk (i : ℤ) rest

/-- Embedding of `continuous_to_discrete` (`utils.py`): after the length
check (`ValueError`, modelled as `none`) the walk is seeded with
`cur_idx = np.min(indices) - 1`. -/
def continuous_to_discrete (times : List ℚ) (indices : List ℕ)
    (values : List (Option String)) : Option (List ℚ × List (Option String)) :=
  if times.length = indices.length ∧ times.length = values.length then
    let w := c2dWalk ((npMinN indices : ℤ) - 1) (times.zip (indices.zip values))
    some (w.map Prod.fst, w.map Prod.snd)
  else none

/-- Squared per-step displacements of `classify_velocity`:
`vels = np.linalg.norm(gaze[:, 1:] - gaze[:, :-1], axis=0)` followed by
`np.concatenate([vels, [0.]])` (trailing zero pad).  The squares are kept so
that everything stays rational; the comparison against the threshold is
performed by `is_saccade`. -/
def velsSq (x y : List ℚ) : List ℚ :=
  List.zipWith (fun dx dy => dx^2 + dy^2)
    (List.zipWith (fun a b => b - a) x x.tail)
    (List.zipWith (fun a b => b - a) y y.tail) ++ [0]

/-- Per-sample threshold `sample_thresh = threshold / sfreq` of
`classify_velocity`; `none` (NaN/inf sampling rate) yields a NaN
threshold. -/
def sampleThresh (osfreq : Option ℚ) (threshold : ℚ) : Option ℚ :=
  osfreq.map fun f => threshold / f

/-- Test `vels > sample_thresh` of `classify_velocity`: the source compares
the Euclidean step norm `√vsq` against the per-sample threshold `st`; for
`vsq ≥ 0` one has `√vsq > st ↔ st < 0 ∨ st² < vsq` over the reals, which is
the exact rational test used here.  A `none` (NaN) threshold makes every
comparison false, so every sample stays `Fixation`, as NaN comparisons do in
numpy. -/
def is_saccade (st : Option ℚ) (vsq : ℚ) : Bool :=
  match st with
  | none => false
  | some t => decide (t < 0) || decide (t^2 < vsq)

/-- Tail of the segment-grouping loop of `classify_velocity`
(`segments[idx] = segments[idx-1]` if the class repeats, else `+ 1`);
`cur` and `prev` are the previous sample's segment index and class. -/
def segmentsFrom : ℕ → String → List String → List ℕ
  | _, _, [] => []
  | cur, prev, c :: rest =>
      let nxt := if c = prev then cur else cur + 1
      nxt :: segmentsFrom nxt c rest

/-- Segment indices grouped from consecutive equal classes
(`segments[0] = 0`). -/
def groupSegments : List String → List ℕ
  | [] => []
  | c :: rest => 0 :: segmentsFrom 0 c rest

/-- Embedding of `classify_velocity` (`classification.py`).  `none` models a
raised exception: `ZeroDivisionError` from `_get_time` for scalar rate 0, the
`np.stack` failure for mismatched coordinate lengths, and the boolean-mask
indexing failure for empty input. -/
def classify_velocity (x y : List ℚ) (time : TimeArg) (threshold : ℚ) :
    Option (List ℕ × List String) :=
  if x.length = 0 ∨ x.length ≠ y.length then none else
  match get_time x.length time with
  | .error _ => none
  | .ok (_, osf) =>
      let st := sampleThresh osf threshold
      let cls := (velsSq x y).map fun v => if is_saccade st v then "Saccade" else "Fixation"
      some (groupSegments cls, cls)

/-- Maximum of a list of rationals, as `np.max` computes it (`0` default for
the empty array, on which the source raises; the claims keep windows
nonempty). -/
def npMaxQ : List ℚ → ℚ
  | [] => 0
  | a :: l => l.foldl max a

/-- Minimum of a list of rationals, as `np.min` computes it (`0` default,
see `npMaxQ`). -/
def npMinQ : List ℚ → ℚ
  | [] => 0
  | a :: l => l.foldl min a

/-- Dispersion `_disp` of `classify_dispersion`:
`(max(x) - min(x)) + (max(y) - min(y))` over a window. -/
def dispOf (xs ys : List ℚ) : ℚ :=
  (npMaxQ xs - npMinQ xs) + (npMaxQ ys - npMinQ ys)

/-- Python slice `l[a:b]` for `0 ≤ a ≤ b` (out-of-range ends clamp). -/
def slice (l : List ℚ) (a b : ℕ) : List ℚ := (l.drop a).take (b - a)

/-- Dispersion of the window `[a, b)` of the gaze arrays. -/
def winDisp (x y : List ℚ) (a b : ℕ) : ℚ := dispOf (slice x a b) (slice y a b)

/-- Number of iterations of the absorbing inner `while` of
`classify_dispersion` (`while _disp(win_x, win_y) <= threshold and
i_stop < len(x): i_stop += 1`) when entered with window `[s, istop)`.  The
loop increments `i_stop` only while `i_stop < len(x)`, so it runs at most
`len(x) - i_stop` times; the explicit fuel (always instantiated with the
sufficient `len(x) + 1`, see `extendStepsF_congr`) keeps the recursion
structural. -/
def extendStepsF (x y : List ℚ) (th : ℚ) (s : ℕ) : ℕ → ℕ → ℕ
  | 0, _ => 0
  | fuel + 1, istop =>
      if winDisp x y s istop ≤ th ∧ istop < x.length then
        extendStepsF x y th s fuel (istop + 1) + 1
      else 0

/-- Final `i_stop` after the absorbing inner `while` of
`classify_dispersion`. -/
def extendFix (x y : List ℚ) (th : ℚ) (s istop : ℕ) : ℕ :=
  istop + extendStepsF x y th s (x.length + 1) istop

/-- Numpy slice assignment `arr[a:b] = v` on a list. -/
def writeRange {α : Type} : List α → ℕ → ℕ → α → List α
  | [], _, _, _ => []
  | h :: t, a, b, v => (if a = 0 ∧ 0 < b then v else h) :: writeRange t (a - 1) (b - 1) v

/-- Main `while i_stop <= len(x)` loop of `classify_dispersion`.  Every
iteration strictly increases `i_start` while the guard forces
`i_start < i_stop ≤ len(x)`, so the loop runs at most `len(x) + 1` times;
the explicit fuel (always instantiated with `len(x) + 1`, shown sufficient
by `dispLoopF_congr`) keeps the recursion structural.  The extra guard
`i_start < i_stop` is vacuous in every reachable state with `n_samples ≥ 1`
(there `i_stop = i_start + n_samples` at each loop head); for
`n_samples = 0` the source would call `np.max` on an empty window and raise,
so that region carries no claim. -/
def dispLoopF (x y : List ℚ) (th : ℚ) (n : ℕ) :
    ℕ → List ℕ → List String → ℕ → ℕ → ℕ → List ℕ × List String
  | 0, segs, cls, _, _, _ => (segs, cls)
  | fuel + 1, segs, cls, i_start, i_stop, seg_idx =>
      if i_stop ≤ x.length ∧ i_start < i_stop then
        if winDisp x y i_start i_stop ≤ th then
          let e := extendFix x y th i_start i_stop
          dispLoopF x y th n fuel (writeRange segs i_start e (seg_idx + 1))
            (writeRange cls i_start e "Fixation") e (e + n) (seg_idx + 2)
        else
          dispLoopF x y th n fuel (writeRange segs i_start i_stop seg_idx) cls
            (i_start + 1) (i_start + 1 + n) seg_idx
      else (segs, cls)

/-- Body of `classify_dispersion` after the time base has been resolved:
everything starts as `Saccade` in segment `0`, the window starts as
`[0, n_samples)` with `seg_idx = 0`. -/
def classifyDispersionCore (x y : List ℚ) (th : ℚ) (n : ℕ) : List ℕ × List String :=
  dispLoopF x y th n (x.length + 1) (List.replicate x.length 0)
    (List.replicate x.length "Saccade") 0 n 0

/-- Embedding of `classify_dispersion` (`classification.py`);
`n_samples = int(sfreq * window_len)`, with `int()` truncation modelled by
`Int.toNat ∘ Int.floor` (they agree for the nonnegative products the claims
use).  A NaN sampling rate makes `int(...)` raise (`none`); the embedding
assumes `x` and `y` have equal length (the theorems hypothesize it). -/
def classify_dispersion (x y : List ℚ) (time : TimeArg) (threshold window_len : ℚ) :
    Option (List ℕ × List String) :=
  match get_time x.length time with
  | .error _ => none
  | .ok (_, none) => none
  | .ok (_, some f) =>
      some (classifyDispersionCore x y threshold (⌊f * window_len⌋.toNat))

/-- Dispersion bound on fixation spans (spec-side): every interval of
samples that share one segment index and are all labeled `Fixation` has
dispersion at most `th` once its final sample is removed.  The final sample
is excluded because the absorbing loop of `classify_dispersion` increments
`i_stop` before re-checking the dispersion, so the marked span includes the
first sample that broke the bound. -/
def FixSpanBound (x y : List ℚ) (th : ℚ) (segs : List ℕ) (cls : List String) : Prop :=
  ∀ a b, a + 1 < b → b ≤ x.length →
    (∀ p, a ≤ p → p < b → cls[p]? = some "Fixation" ∧ segs[p]? = segs[a]?) →
    winDisp x y a (b - 1) ≤ th

/-- Median of a list, as `np.median` computes it: sort ascending, take the
middle element (odd length) or the mean of the two middle elements (even
length); `np.median` of an empty array is NaN, modelled as `none`. -/
def medianQ (l : List ℚ) : Option ℚ :=
  if l = [] then none else
    let s := l.insertionSort (· ≤ ·)
    let n := l.length
    if n % 2 = 1 then some (s.getD (n / 2) 0)
    else some ((s.getD (n / 2 - 1) 0 + s.getD (n / 2) 0) / 2)

/-- Iteration of `mad_velocity_thresh` (`while True: ... restrict the
population to velocities `< th`, compute `th' = median + 3·1.48·MAD`, stop
when `th - th' ≤ 1`), with explicit fuel standing in for the unbounded `while
True` (`mad_terminates` shows `madFuel` fuel always suffices).  The source's
`np.sqrt((v - median)**2)` is exactly `|v - median|`.  A result `some none`
models the silent NaN produced when the restricted population is empty
(`np.median([])` is NaN, every NaN comparison is false, so the loop breaks
and returns NaN). -/
def madIterFuel : ℕ → List ℚ → ℚ → Option (Option ℚ)
  | 0, _, _ => none
  | fuel + 1, vels, th =>
      let pop := vels.filter (fun v => v < th)
      match medianQ pop with
      | none => some none
      | some m =>
          let mad := (medianQ (pop.map fun v => |v - m|)).getD 0
          let th1 := m + 3 * (148/100) * mad
          if 1 < th - th1 then madIterFuel fuel vels th1 else some (some th1)

/-- Fuel bound for `madIterFuel`: the threshold drops by more than `1` per
continued iteration and stays at or above the population minimum, so this
many iterations always reach a result. -/
def madFuel (vels : List ℚ) (th : ℚ) : ℕ := (⌈th - npMinQ vels⌉).toNat + 2

/-- Embedding of `mad_velocity_thresh` (`classification.py`) specialized to
gaze paths that move along one axis (constant `y` coordinate), for which the
step norm `√(Δx² + Δy²)` of the source is exactly `|Δx|`; the velocities get
a leading zero pad (`np.concatenate([[0.], vels])`), the initial threshold is
converted to per-sample units (`th_0 / sfreq`) and the accepted threshold
back (`* sfreq`).  Only the `return_past_threshs=False` path is modelled.
`none` models the `ZeroDivisionError` of a zero scalar rate; `some none`
models a silently returned NaN (including the NaN-rate case, where
`th_0 / NaN` is NaN and the restricted population is immediately empty). -/
def mad_velocity_thresh (x : List ℚ) (time : TimeArg) (th_0 : ℚ) :
    Option (Option ℚ) :=
  match get_time x.length time with
  | .error _ => none
  | .ok (_, none) => some none
  | .ok (_, some f) =>
      let th := th_0 / f
      let vels := 0 :: List.zipWith (fun a b => |b - a|) x x.tail
      (madIterFuel (madFuel vels th) vels th).map (Option.map (· * f))

/-! Helper lemmas: one-step unfoldings of the fuelled loops. -/

lemma dispLoopF_succ (x y : List ℚ) (th : ℚ) (n fuel : ℕ) (segs : List ℕ)
    (cls : List String) (i_start i_stop seg_idx : ℕ) :
    dispLoopF x y th n (fuel + 1) segs cls i_start i_stop seg_idx =
      if i_stop ≤ x.length ∧ i_start < i_stop then
        if winDisp x y i_start i_stop ≤ th then
          dispLoopF x y th n fuel
            (writeRange segs i_start (extendFix x y th i_start i_stop) (seg_idx + 1))
            (writeRange cls i_start (extendFix x y th i_start i_stop) "Fixation")
            (extendFix x y th i_start i_stop)
            (extendFix x y th i_start i_stop + n) (seg_idx + 2)
        else
          dispLoopF x y th n fuel (writeRange segs i_start i_stop seg_idx) cls
            (i_start + 1) (i_start + 1 + n) seg_idx
      else (segs, cls)
  := rfl

lemma extendStepsF_succ (x y : List ℚ) (th : ℚ) (s fuel istop : ℕ) :
    extendStepsF x y th s (fuel + 1) istop =
      if winDisp x y s istop ≤ th ∧ istop < x.length then
        extendStepsF x y th s fuel (istop + 1) + 1
      else 0 := rfl

lemma madIterFuel_succ (fuel : ℕ) (vels : List ℚ) (th : ℚ) :
    madIterFuel (fuel + 1) vels th =
      (let pop := vels.filter (fun v => v < th)
       match medianQ pop with
       | none => some none
       | some m =>
           let mad := (medianQ (pop.map fun v => |v - m|)).getD 0
           let th1 := m + 3 * (148/100) * mad
           if 1 < th - th1 then madIterFuel fuel vels th1 else some (some th1)) := rfl

/-! Helper lemmas: the segment grouping of `classify_velocity`. -/

lemma segmentsFrom_length (l : List String) (cur : ℕ) (prev : String) :
    (segmentsFrom cur prev l).length = l.length := by
  induction l generalizing cur prev with
  | nil => rfl
  | cons c rest ih => simp [segmentsFrom, ih]

lemma groupSegments_length (cls : List String) :
    (groupSegments cls).length = cls.length := by
  cases cls with
  | nil => rfl
  | cons c rest => simp [groupSegments, segmentsFrom_length]

lemma segmentsFrom_chain :
    ∀ (l : List String) (cur : ℕ) (prev : String),
      List.Chain (fun a b : ℕ × String => b.1 = if b.2 = a.2 then a.1 else a.1 + 1)
        (cur, prev) ((segmentsFrom cur prev l).zip l)
  | [], _, _ => List.Chain.nil
  | c :: rest, cur, prev => by
      simp only [segmentsFrom, List.zip_cons_cons]
      exact List.Chain.cons rfl (segmentsFrom_chain rest _ c)

lemma groupSegments_chain (cls : List String) :
    List.Chain' (fun a b : ℕ × String => b.1 = if b.2 = a.2 then a.1 else a.1 + 1)
      ((groupSegments cls).zip cls) := by
  cases cls with
  | nil => simp [groupSegments]
  | cons c rest =>
      simpa [groupSegments, List.zip_cons_cons] using segmentsFrom_chain rest 0 c

lemma classify_velocity_some {x y : List ℚ} {time : TimeArg} {th : ℚ}
    {segs : List ℕ} {cls : List String}
    (h : classify_velocity x y time th = some (segs, cls)) :
    segs = groupSegments cls := by
  unfold classify_velocity at h
  by_cases hg : x.length = 0 ∨ x.length ≠ y.length
  · rw [if_pos hg] at h; cases h
  · rw [if_neg hg] at h
    cases hge : get_time x.length time with
    | error e => rw [hge] at h; cases h
    | ok p =>
        obtain ⟨ts, osf⟩ := p
        rw [hge] at h
        simp only [Option.some.injEq, Prod.mk.injEq] at h
        obtain ⟨h1, h2⟩ := h
        rw [← h2]
        exact h1.symm

/-- C3 (counterexample): the claim asserts that the continuous index sequence
of `classify_dispersion` is non-decreasing and increments by exactly 1 at
label changes; with `x = [0,0,5,5]`, `y = [0,0,0,0]`, a 1 Hz rate, threshold
`1` and a 2-second window the output is `([1,1,1,0], [Fixation ×3,
Saccade])`: the index sequence decreases at the final sample, where the label
also changes without the index growing by 1 (the trailing samples that never
form a full window keep their initial segment `0`). -/
theorem dispersion_monotone_cex :
    classify_dispersion [0,0,5,5] [0,0,0,0] (.rate 1) 1 2 =
      some ([1, 1, 1, 0], ["Fixation", "Fixation", "Fixation", "Saccade"]) ∧
    ¬ List.Chain' (· ≤ ·) ([1, 1, 1, 0] : List ℕ) ∧
    (["Fixation", "Fixation", "Fixation", "Saccade"] : List String)[3]? ≠
      (["Fixation", "Fixation", "Fixation", "Saccade"] : List String)[2]? ∧
    ([1, 1, 1, 0] : List ℕ)[3]? ≠ (([1, 1, 1, 0] : List ℕ)[2]?).map (· + 1) := by
  refine ⟨?_, by simp [List.chain'_cons], by decide, by decide⟩
  have hn : (⌊(1:ℚ) * 2⌋).toNat = 2 := by norm_num [show Int.toNat 2 = 2 from rfl]
  have he : extendFix [0,0,5,5] [0,0,0,0] 1 0 2 = 3 := by
    rw [extendFix, show (([0,0,5,5] : List ℚ).length + 1) = 4+1 from rfl, extendStepsF_succ,
      if_pos (by norm_num [winDisp, slice, dispOf, npMaxQ, npMinQ]),
      show (4:ℕ) = 3+1 from rfl, extendStepsF_succ,
      if_neg (by norm_num [winDisp, slice, dispOf, npMaxQ, npMinQ])]
  norm_num [classify_dispersion, get_time, sfreq_to_times, Except.map, hn,
    show Int.toNat 2 = 2 from rfl, classifyDispersionCore, List.replicate]
  rw [show (5:ℕ) = 4+1 from rfl, dispLoopF_succ,
    if_pos (by norm_num), if_pos (by norm_num [winDisp, slice, dispOf, npMaxQ, npMinQ]), he]
  norm_num [writeRange]
  rw [show (4:ℕ) = 3+1 from rfl, dispLoopF_succ, if_neg (by norm_num)]

/-- C3 (amended): for `classify_velocity` the continuous index sequence is
non-decreasing along time and increments by exactly 1 at each sample whose
label differs from the previous sample's label; `classify_dispersion`
violates both properties (see `dispersion_monotone_cex`). -/
theorem velocity_monotone (x y : List ℚ) (time : TimeArg) (threshold : ℚ)
    (segs : List ℕ) (cls : List String)
    (h : classify_velocity x y time threshold = some (segs, cls)) :
    List.Chain' (· ≤ ·) segs ∧
    ∀ i, i + 1 < cls.length → cls[i+1]? ≠ cls[i]? →
      segs[i+1]? = segs[i]?.map (· + 1) := by
  have hseg := classify_velocity_some h
  subst hseg
  constructor
  · have hc := groupSegments_chain cls
    have hmap : (groupSegments cls) = ((groupSegments cls).zip cls).map Prod.fst :=
      (List.map_fst_zip _ _ (by rw [groupSegments_length])).symm
    rw [hmap, List.chain'_map]
    refine hc.imp ?_
    intro a b hr
    rw [hr]
    split <;> omega
  · intro i hi hne
    have hc := groupSegments_chain cls
    rw [List.chain'_iff_get] at hc
    have hlenz : ((groupSegments cls).zip cls).length = cls.length := by
      simp [groupSegments_length]
    have hi' : i < ((groupSegments cls).zip cls).length - 1 := by omega
    have hr := hc i hi'
    simp only [List.get_eq_getElem, List.getElem_zip] at hr
    have hg1 : i < (groupSegments cls).length := by rw [groupSegments_length]; omega
    have hg2 : i + 1 < (groupSegments cls).length := by rw [groupSegments_length]; omega
    have hc1 : i < cls.length := by omega
    rw [List.getElem?_eq_getElem hg2, List.getElem?_eq_getElem hg1]
    rw [List.getElem?_eq_getElem hi, List.getElem?_eq_getElem hc1] at hne
    have hnev : ¬ (cls[i+1] = cls[i]) := fun hh => hne (by rw [hh])
    rw [hr, if_neg hnev]
    rfl

/-- Witness for `velocity_monotone` at `x = [0,5]`, `y = [0,0]`, a 1 Hz rate
and threshold `3`, where the classes are `[Saccade, Fixation]` and the
segment indices `[0, 1]`. -/
theorem velocity_monotone_witness :
    List.Chain' (· ≤ ·) ([0, 1] : List ℕ) ∧
    ∀ i, i + 1 < (["Saccade", "Fixation"] : List String).length →
      (["Saccade", "Fixation"] : List String)[i+1]? ≠
        (["Saccade", "Fixation"] : List String)[i]? →
      ([0, 1] : List ℕ)[i+1]? = (([0, 1] : List ℕ)[i]?).map (· + 1) :=
  velocity_monotone [0, 5] [0, 0] (.rate 1) 3 [0, 1] ["Saccade", "Fixation"]
    (by norm_num [classify_velocity, get_time, sfreq_to_times, Except.map, velsSq,
          sampleThresh, is_saccade, groupSegments, segmentsFrom]
        decide)

/-- C4 (counterexample): the claim asserts that I-VT on `x = [0,0,10]`,
`y = [0,0,0]` at 1 Hz with threshold 5 computes the velocity array
`[0,0,10]` and labels `[Fixation, Fixation, Saccade]`; the source pads the
step displacements with a trailing (not leading) zero, so the squared
velocities are `[0,100,0]` (not `[0,0,100]`) and the classes are
`[Fixation, Saccade, Fixation]`. -/
theorem ivt_scenario_cex :
    velsSq [0,0,10] [0,0,0] ≠ [0, 0, 100] ∧
    (classify_velocity [0,0,10] [0,0,0] (.rate 1) 5).map Prod.snd ≠
      some ["Fixation", "Fixation", "Saccade"] := by
  constructor
  · norm_num [velsSq]
  · have hv : classify_velocity [0,0,10] [0,0,0] (.rate 1) 5 =
        some ([0, 1, 2], ["Fixation", "Saccade", "Fixation"]) := by
      norm_num [classify_velocity, get_time, sfreq_to_times, Except.map, velsSq,
        sampleThresh, is_saccade, groupSegments, segmentsFrom]
      decide
    rw [hv]
    decide

/-- C4 (amended): I-VT with `x = [0,0,10]`, `y = [0,0,0]`, `time = 1` (1 Hz)
and `threshold = 5` uses a per-sample threshold of 5, computes the per-sample
velocity array `[0, 10, 0]` (trailing zero pad, squared here: `[0,100,0]`),
and returns the labels `[Fixation, Saccade, Fixation]` with segment indices
`[0, 1, 2]`. -/
theorem ivt_scenario :
    sampleThresh (some 1) 5 = some 5 ∧
    velsSq [0,0,10] [0,0,0] = [0, 100, 0] ∧
    classify_velocity [0,0,10] [0,0,0] (.rate 1) 5 =
      some ([0, 1, 2], ["Fixation", "Saccade", "Fixation"]) := by
  refine ⟨by norm_num [sampleThresh], by norm_num [velsSq], ?_⟩
  norm_num [classify_velocity, get_time, sfreq_to_times, Except.map, velsSq,
    sampleThresh, is_saccade, groupSegments, segmentsFrom]
  decide

/-- C7 (code bug): on an input whose restricted velocity population becomes
empty (here `x = [0, 1000]` at 1 Hz with `th_0 = 200`: after one refinement
the threshold is 0 and no velocity is below it), `mad_velocity_thresh` does
not raise any error: `np.median` of the empty population is NaN, the NaN
comparison ends the loop, and the NaN (modelled `some none`, i.e. a normal
return carrying NaN) is returned silently — contradicting the claimed
degenerate-input error. -/
theorem mad_empty_pop_nan :
    mad_velocity_thresh [0, 1000] (.rate 1) 200 = some none := by
  have hf : madFuel [0, 1000] 200 = 202 := by
    norm_num [madFuel, npMinQ, show Int.toNat 200 = 200 from rfl]
  have hm1 : medianQ [0] = some 0 := by
    unfold medianQ
    rw [if_neg (by simp)]
    norm_num [List.insertionSort, List.orderedInsert]
  norm_num [mad_velocity_thresh, get_time, sfreq_to_times, Except.map]
  rw [hf, show (202:ℕ) = 201+1 from rfl, madIterFuel_succ]
  simp only [List.filter, decide_eq_true_eq]
  norm_num [hm1]
  rw [show (201:ℕ) = 200+1 from rfl, madIterFuel_succ]
  norm_num [medianQ]

/-- C6 (counterexample): the claim asserts that the threshold returned by
`mad_velocity_thresh` is at most `th_0` whenever the restricted population
stays non-empty; for the single-axis gaze path `x = [0, 0, 199, 398]` at
1 Hz with `th_0 = 200` (velocities `[0,0,199,199]`, population non-empty
throughout) the estimator accepts `541.28 = 13532/25 > 200` after one
iteration. -/
theorem mad_le_th0_cex :
    mad_velocity_thresh [0, 0, 199, 398] (.rate 1) 200 = some (some (13532/25)) ∧
    ¬ ((13532 : ℚ)/25 ≤ 200) := by
  refine ⟨?_, by norm_num⟩
  have hf : madFuel [0, 0, 199, 199] 200 = 202 := by
    norm_num [madFuel, npMinQ, show Int.toNat 200 = 200 from rfl]
  have hm1 : medianQ [0, 0, 199, 199] = some (199/2) := by
    unfold medianQ
    rw [if_neg (by simp)]
    norm_num [List.insertionSort, List.orderedInsert]
  have hm2 : medianQ [|(199:ℚ)/2|, |(199:ℚ)/2|, |(199:ℚ)/2|, |(199:ℚ)/2|]
      = some (199/2) := by
    unfold medianQ
    rw [if_neg (by simp)]
    norm_num [List.insertionSort, List.orderedInsert]
  norm_num [mad_velocity_thresh, get_time, sfreq_to_times, Except.map]
  rw [hf, show (202:ℕ) = 201+1 from rfl, madIterFuel_succ]
  simp only [List.filter, decide_eq_true_eq]
  norm_num [hm1]
  rw [hm2]
  norm_num

/-- C8 (counterexample): the claim asserts that the time-base resolver fails
with an invalid-input error when the sequence has fewer than 2 elements or
when the resolved rate is nonpositive; `_get_time` performs no such
validation: a scalar rate `-1 ≤ 0` returns times `[0,-1,-2]` and rate `-1`
normally, and the 1-element sequence `[5]` returns normally with a NaN rate
(`none`). -/
theorem get_time_no_validation_cex :
    get_time 3 (.rate (-1)) = .ok ([0, -1, -2], some (-1)) ∧ (-1 : ℚ) ≤ 0 ∧
    get_time 1 (.stamps [5]) = .ok ([5], none) ∧ (1 : ℕ) < 2 := by
  refine ⟨?_, by norm_num, ?_, by norm_num⟩
  · norm_num [get_time, sfreq_to_times, Except.map, List.range_succ]
  · norm_num [get_time]

/-- C8 (amended): `_get_time` validates nothing: the only way it can fail is
the accidental `ZeroDivisionError` when the time argument is the scalar rate
0; every other call — including rates below 0 and timestamp sequences with
fewer than 2 elements — returns `(times, sfreq)` normally (with a NaN
`sfreq`, modelled `none`, when no finite rate can be derived). -/
theorem get_time_error_iff (n : ℕ) (time : TimeArg) :
    get_time n time = .error () ↔ time = .rate 0 := by
  cases time with
  | stamps ts => simp [get_time]
  | rate q =>
      by_cases hq : q = 0
      · subst hq
        simp [get_time, sfreq_to_times, Except.map]
      · simp [get_time, sfreq_to_times, hq, Except.map]

/-! Helper lemmas: the event-assignment loop of `discrete_to_continuous`. -/

lemma assignFrom_eq_lastHit (evs : List (ℚ × String)) (t : ℚ) :
    ∀ (k : ℕ) (cur : ℕ × Option String),
      assignFrom t k cur evs =
        match lastHit t k evs with
        | none => cur
        | some (j, v) => (j + 1, some v) := by
  induction evs with
  | nil => intro k cur; rfl
  | cons ev rest ih =>
      intro k cur
      rw [assignFrom, ih]
      show _ = (match lastHit t k (ev :: rest) with
        | none => cur | some (j, v) => (j + 1, some v))
      rw [lastHit]
      cases hrest : lastHit t (k+1) rest with
      | some r => rfl
      | none =>
          by_cases hle : ev.1 ≤ t
          · simp [hle]
          · simp [hle]

lemma mem_insEv {a p : ℚ × String} {l : List (ℚ × String)} :
    a ∈ insEv p l ↔ a = p ∨ a ∈ l := by
  induction l with
  | nil => simp [insEv]
  | cons q rest ih =>
      rw [insEv]
      by_cases hlt : p.1 < q.1
      · simp [hlt]
      · rw [if_neg hlt]
        simp only [List.mem_cons, ih]
        tauto

lemma insEv_pairwise {p : ℚ × String} {l : List (ℚ × String)}
    (h : List.Pairwise (fun a b : ℚ × String => a.1 ≤ b.1) l) :
    List.Pairwise (fun a b : ℚ × String => a.1 ≤ b.1) (insEv p l) := by
  induction l with
  | nil => simp [insEv]
  | cons q rest ih =>
      obtain ⟨hq, hrest⟩ := List.pairwise_cons.mp h
      rw [insEv]
      by_cases hlt : p.1 < q.1
      · rw [if_pos hlt]
        refine List.pairwise_cons.mpr ⟨?_, h⟩
        intro b hb
        rcases List.mem_cons.mp hb with hb | hb
        · exact hb ▸ le_of_lt hlt
        · exact le_trans (le_of_lt hlt) (hq b hb)
      · rw [if_neg hlt]
        refine List.pairwise_cons.mpr ⟨?_, ih hrest⟩
        intro b hb
        rcases mem_insEv.mp hb with hb | hb
        · exact hb ▸ le_of_not_lt hlt
        · exact hq b hb

lemma sortEvents_pairwise (l : List (ℚ × String)) :
    List.Pairwise (fun a b : ℚ × String => a.1 ≤ b.1) (sortEvents l) := by
  have haux : ∀ (l acc : List (ℚ × String)),
      List.Pairwise (fun a b : ℚ × String => a.1 ≤ b.1) acc →
      List.Pairwise (fun a b : ℚ × String => a.1 ≤ b.1)
        (l.foldl (fun acc p => insEv p acc) acc) := by
    intro l
    induction l with
    | nil => intro acc h; exact h
    | cons p rest ih => intro acc h; exact ih _ (insEv_pairwise h)
  exact haux l [] List.Pairwise.nil

/-- C2 (counterexample): the claim asserts that samples earlier than every
discrete event get a sentinel value that is none of the supplied labels;
the source materializes the unset cells via
`np.full((len(times),), None).astype(dtype)`, so for `times = [0, 1]`,
`discrete_times = [1]`, `discrete_values = ["None"]` the pre-event sample 0
has ordinal `0` and value `'None'`, which is exactly the supplied label
(and with the width-1 label list `["N"]` the sentinel truncates to `'N'`,
again a supplied label). -/
theorem d2c_sentinel_cex :
    (discrete_to_continuous [0, 1] [1] ["None"]).1 = [0, 1] ∧
    d2c_values [0, 1] [1] ["None"] = ["None", "None"] ∧
    ("None" : String) ∈ ["None"] ∧
    d2c_values [0, 1] [1] ["N"] = ["N", "N"] ∧
    ("N" : String) ∈ ["N"] := by
  refine ⟨?_, ?_, by simp, ?_, by simp⟩
  · norm_num [discrete_to_continuous, sortEvents, insEv, assignFrom]
  · norm_num [d2c_values, discrete_to_continuous, sortEvents, insEv, assignFrom,
      unsetSentinel, dtypeWidth, truncStr]
    decide
  · norm_num [d2c_values, discrete_to_continuous, sortEvents, insEv, assignFrom,
      unsetSentinel, dtypeWidth, truncStr]
    decide

/-- C2 (amended): `discrete_to_continuous` sorts the `(time, value)` pairs
by time ascending, assigns event ordinals `1, 2, …` in sorted order, and
gives every output sample the ordinal and value of the last sorted discrete
event whose time is `≤ times[i]`, while samples earlier than every discrete
event get ordinal `0` and the unset cell, which materializes through the
dtype cast to the string `'None'` truncated to the label dtype width
(`unsetSentinel`) — distinct from every supplied label unless some label is
itself that string; in particular for `times = [0, 0.1, 0.2, 0.3]`,
`discrete_times = [0.2]`, `discrete_values = ["Saccade"]` the result is
indices `[0,0,1,1]` and values `['None', 'None', Saccade, Saccade]`, where
the sentinel `'None'` is none of the supplied labels. -/
theorem d2c_spec_amended :
    (∀ (times dts : List ℚ) (dvs : List String), dts.length = dvs.length →
      List.Pairwise (fun a b : ℚ × String => a.1 ≤ b.1) (sortEvents (dts.zip dvs)) ∧
      ∀ i, ∀ _ : i < times.length,
        ((discrete_to_continuous times dts dvs).1[i]?,
         (d2c_values times dts dvs)[i]?) =
          (match lastHit times[i] 0 (sortEvents (dts.zip dvs)) with
           | none => (some 0, some (unsetSentinel dvs))
           | some (k, v) => (some (k + 1), some v))) ∧
    unsetSentinel ["Saccade"] = "None" ∧
    ¬ (("None" : String) ∈ ["Saccade"]) ∧
    discrete_to_continuous [0, 1/10, 2/10, 3/10] [2/10] ["Saccade"] =
      ([0, 0, 1, 1], [none, none, some "Saccade", some "Saccade"]) ∧
    d2c_values [0, 1/10, 2/10, 3/10] [2/10] ["Saccade"] =
      ["None", "None", "Saccade", "Saccade"] := by
  refine ⟨?_, by decide, by decide, ?_, ?_⟩
  · intro times dts dvs _
    refine ⟨sortEvents_pairwise _, ?_⟩
    intro i hi
    unfold d2c_values
    simp only [discrete_to_continuous, List.getElem?_map,
      List.getElem?_eq_getElem hi, Option.map_some']
    rw [assignFrom_eq_lastHit]
    cases lastHit times[i] 0 (sortEvents (dts.zip dvs)) with
    | none => rfl
    | some r => rfl
  · norm_num [discrete_to_continuous, sortEvents, insEv, assignFrom]
  · norm_num [d2c_values, discrete_to_continuous, sortEvents, insEv, assignFrom,
      unsetSentinel, dtypeWidth, truncStr]
    decide

/-- Witness for the universally quantified part of `d2c_spec_amended`,
instantiated at `times = [0, 1/10]`, `dts = [1/10]`, `dvs = ["Saccade"]`,
sample `0`. -/
theorem d2c_spec_amended_witness :
    ((discrete_to_continuous [0, 1/10] [1/10] ["Saccade"]).1[0]?,
     (d2c_values [0, 1/10] [1/10] ["Saccade"])[0]?) =
      (match lastHit 0 0 (sortEvents ([(1:ℚ)/10].zip ["Saccade"])) with
       | none => (some 0, some (unsetSentinel ["Saccade"]))
       | some (k, v) => (some (k + 1), some v)) :=
  (d2c_spec_amended.1 [0, 1/10] [1/10] ["Saccade"] rfl).2 0 (by norm_num)

/-! Helper lemmas and theorems for the event-codec round trip (C1). -/

lemma insEv_append (p : ℚ × String) (acc : List (ℚ × String))
    (h : ∀ q ∈ acc, q.1 ≤ p.1) : insEv p acc = acc ++ [p] := by
  induction acc with
  | nil => rfl
  | cons q rest ih =>
      rw [insEv, if_neg (not_lt.mpr (h q (List.mem_cons_self q rest)))]
      rw [ih (fun r hr => h r (List.mem_cons_of_mem q hr))]
      rfl

lemma sortEvents_eq_self (l : List (ℚ × String))
    (h : List.Pairwise (fun a b : ℚ × String => a.1 ≤ b.1) l) :
    sortEvents l = l := by
  have haux : ∀ (l acc : List (ℚ × String)),
      (∀ q ∈ acc, ∀ p ∈ l, q.1 ≤ p.1) →
      List.Pairwise (fun a b : ℚ × String => a.1 ≤ b.1) l →
      l.foldl (fun acc p => insEv p acc) acc = acc ++ l := by
    intro l
    induction l with
    | nil => intro acc _ _; simp
    | cons p rest ih =>
        intro acc hacc hp
        obtain ⟨hhead, htail⟩ := List.pairwise_cons.mp hp
        have h1 : insEv p acc = acc ++ [p] :=
          insEv_append p acc (fun q hq => hacc q hq p (List.mem_cons_self p rest))
        show List.foldl _ (insEv p acc) rest = _
        rw [h1, ih (acc ++ [p]) ?_ htail]
        · simp
        · intro q hq r hr
          rcases List.mem_append.mp hq with hq | hq
          · exact hacc q hq r (List.mem_cons_of_mem p hr)
          · rw [List.mem_singleton.mp hq]
            exact hhead r hr
  exact haux l [] (by simp) h

lemma pairwise_zip_of_fst {R : ℚ → ℚ → Prop} :
    ∀ {l1 : List ℚ} {l2 : List String}, List.Pairwise R l1 →
      List.Pairwise (fun p q : ℚ × String => R p.1 q.1) (l1.zip l2)
  | [], _, _ => by simp
  | a :: l1, [], _ => by simp
  | a :: l1, b :: l2, h => by
      obtain ⟨hhead, htail⟩ := List.pairwise_cons.mp h
      rw [List.zip_cons_cons]
      refine List.pairwise_cons.mpr ⟨?_, pairwise_zip_of_fst htail⟩
      intro q hq
      exact hhead q.1 (List.of_mem_zip hq).1

lemma lastHit_eq_none_iff {t : ℚ} :
    ∀ {k : ℕ} {evs : List (ℚ × String)},
      lastHit t k evs = none ↔ ∀ ev ∈ evs, ¬ ev.1 ≤ t := by
  intro k evs
  induction evs generalizing k with
  | nil => simp [lastHit]
  | cons ev rest ih =>
      rw [lastHit]
      cases hrest : lastHit t (k+1) rest with
      | some r =>
          simp only []
          constructor
          · intro h; cases h
          · intro h
            have hnone : lastHit t (k+1) rest = none :=
              ih.mpr (fun e he hc => h e (List.mem_cons_of_mem _ he) hc)
            rw [hnone] at hrest
            cases hrest
      | none =>
          have hr : ∀ ev ∈ rest, ¬ ev.1 ≤ t := ih.mp hrest
          by_cases hle : ev.1 ≤ t
          · simp only [if_pos hle]
            constructor
            · intro h; cases h
            · intro h; exact absurd hle (h ev (by simp))
          · simp only [if_neg hle]
            constructor
            · intro _ e he
              rcases List.mem_cons.mp he with rfl | he
              · exact hle
              · exact hr e he
            · intro _; trivial


lemma lastHit_sorted_pos {t : ℚ} :
    ∀ (ds : List ℚ) (vs : List String) (k : ℕ),
      ds.length = vs.length → List.Chain' (· < ·) ds →
      0 < ds.countP (fun d => decide (d ≤ t)) →
      lastHit t k (ds.zip vs) =
        (vs[ds.countP (fun d => decide (d ≤ t)) - 1]?).map
          (fun v => (k + ds.countP (fun d => decide (d ≤ t)) - 1, v))
  | [], vs, k, hlen, hch, hpos => by simp at hpos
  | d :: ds', [], k, hlen, hch, hpos => by simp at hlen
  | d :: ds', v :: vs', k, hlen, hch, hpos => by
      have hlen' : ds'.length = vs'.length := by simpa using hlen
      have hch' : List.Chain' (· < ·) ds' := hch.tail
      have hpw : List.Pairwise (· < ·) (d :: ds') := List.chain'_iff_pairwise.mp hch
      have hdlt : ∀ d' ∈ ds', d < d' := (List.pairwise_cons.mp hpw).1
      rw [List.zip_cons_cons, lastHit]
      by_cases hle : d ≤ t
      · have hcnt : (d :: ds').countP (fun d => decide (d ≤ t)) =
            ds'.countP (fun d => decide (d ≤ t)) + 1 := by
          rw [List.countP_cons]
          simp [hle]
        by_cases hF' : 0 < ds'.countP (fun d => decide (d ≤ t))
        · rw [lastHit_sorted_pos ds' vs' (k+1) hlen' hch' hF']
          have hlt : ds'.countP (fun d => decide (d ≤ t)) - 1 < vs'.length := by
            have := List.countP_le_length (p := fun d => decide (d ≤ t)) (l := ds')
            omega
          have hFm : (d :: ds').countP (fun d => decide (d ≤ t)) - 1 =
              (ds'.countP (fun d => decide (d ≤ t)) - 1) + 1 := by omega
          rw [hFm, List.getElem?_cons_succ, List.getElem?_eq_getElem hlt]
          simp only [Option.map_some', Option.some.injEq, Prod.mk.injEq]
          refine ⟨by omega, ?_⟩
          try rfl
          try trivial
        · have hF'0 : ds'.countP (fun d => decide (d ≤ t)) = 0 := by omega
          have hnone : lastHit t (k+1) (ds'.zip vs') = none := by
            rw [lastHit_eq_none_iff]
            intro ev hev
            have hmem := (List.of_mem_zip hev).1
            have h0 := List.countP_eq_zero.mp hF'0 ev.1 hmem
            simpa using h0
          rw [hnone]
          simp [if_pos hle, hcnt, hF'0]
      · exfalso
        have h0 : ∀ d' ∈ (d :: ds'), ¬ d' ≤ t := by
          intro d' hd'
          rcases List.mem_cons.mp hd' with rfl | hd'
          · exact hle
          · exact fun hc => hle (le_of_lt (lt_of_lt_of_le (hdlt d' hd') hc))
        have : (d :: ds').countP (fun d => decide (d ≤ t)) = 0 :=
          List.countP_eq_zero.mpr (fun a ha => by simpa using h0 a ha)
        omega


lemma walk_spec :
    ∀ (ts ds : List ℚ) (vs : List String) (c0 : ℕ) (w0 : Option String),
      ds.length = vs.length →
      List.Chain' (· < ·) ts → List.Chain' (· < ·) ds →
      (∀ d ∈ ds, d ∈ ts) →
      c2dWalk (c0 : ℤ) (ts.map fun t =>
        (t, c0 + ds.countP (fun d => decide (d ≤ t)),
         if ds.countP (fun d => decide (d ≤ t)) = 0 then w0
         else vs[ds.countP (fun d => decide (d ≤ t)) - 1]?)) =
      ds.zip (vs.map some)
  | ts, [], vs, c0, w0, hlen, hts, hds, hmem => by
      simp only [List.countP_nil, Nat.add_zero, List.zip_nil_left]
      induction ts with
      | nil => rfl
      | cons t ts' ih =>
          rw [List.map_cons, c2dWalk, if_neg (by omega)]
          exact ih hts.tail (by simp)
  | [], d :: ds', vs, c0, w0, hlen, hts, hds, hmem => by
      exact absurd (hmem d (List.mem_cons_self d ds')) (List.not_mem_nil d)
  | t :: ts', d :: ds', v :: vs', c0, w0, hlen, hts, hds, hmem => by
      have hlen' : ds'.length = vs'.length := by simpa using hlen
      have hts'' : List.Chain' (· < ·) ts' := hts.tail
      have hds'' : List.Chain' (· < ·) ds' := hds.tail
      have htlt : ∀ t' ∈ ts', t < t' :=
        (List.pairwise_cons.mp (List.chain'_iff_pairwise.mp hts)).1
      have hdlt : ∀ d' ∈ ds', d < d' :=
        (List.pairwise_cons.mp (List.chain'_iff_pairwise.mp hds)).1
      rcases List.mem_cons.mp (hmem d (List.mem_cons_self d ds')) with hdt | hdts'
      · -- d = t : the event at the head time is emitted here
        subst hdt
        have hF : (d :: ds').countP (fun e => decide (e ≤ d)) = 1 := by
          rw [List.countP_cons]
          have h0 : ds'.countP (fun e => decide (e ≤ d)) = 0 :=
            List.countP_eq_zero.mpr (fun a ha => by
              simpa using not_le.mpr (hdlt a ha))
          simp [h0]
        rw [List.map_cons, c2dWalk]
        simp only [hF]
        rw [if_pos (by push_cast; omega)]
        have hslot : (if (1:ℕ) = 0 then w0 else (v :: vs')[1 - 1]?) = some v := by simp
        have hmap : ts'.map (fun t =>
            (t, c0 + (d :: ds').countP (fun e => decide (e ≤ t)),
             if (d :: ds').countP (fun e => decide (e ≤ t)) = 0 then w0
             else (v :: vs')[(d :: ds').countP (fun e => decide (e ≤ t)) - 1]?)) =
          ts'.map (fun t =>
            (t, (c0 + 1) + ds'.countP (fun e => decide (e ≤ t)),
             if ds'.countP (fun e => decide (e ≤ t)) = 0 then some v
             else vs'[ds'.countP (fun e => decide (e ≤ t)) - 1]?)) := by
          refine List.map_congr_left ?_
          intro t' ht'
          have hdle : d ≤ t' := le_of_lt (htlt t' ht')
          have hFc : (d :: ds').countP (fun e => decide (e ≤ t')) =
              ds'.countP (fun e => decide (e ≤ t')) + 1 := by
            rw [List.countP_cons]; simp [hdle]
          refine Prod.ext rfl (Prod.ext ?_ ?_)
          · show c0 + (d :: ds').countP (fun e => decide (e ≤ t')) =
              (c0 + 1) + ds'.countP (fun e => decide (e ≤ t'))
            omega
          · show (if (d :: ds').countP (fun e => decide (e ≤ t')) = 0 then w0
              else (v :: vs')[(d :: ds').countP (fun e => decide (e ≤ t')) - 1]?) = _
            rw [hFc]
            by_cases hF0 : ds'.countP (fun e => decide (e ≤ t')) = 0
            · simp [hF0]
            · rw [if_neg (by omega), if_neg hF0]
              have : ds'.countP (fun e => decide (e ≤ t')) + 1 - 1 =
                  (ds'.countP (fun e => decide (e ≤ t')) - 1) + 1 := by omega
              rw [this, List.getElem?_cons_succ]
        rw [hslot, hmap]
        have hrec := walk_spec ts' ds' vs' (c0 + 1) (some v) hlen' hts'' hds''
          (fun d' hd' => by
            rcases List.mem_cons.mp (hmem d' (List.mem_cons_of_mem d hd')) with h | h
            · exfalso
              have h2 := hdlt d' hd'
              rw [h] at h2
              exact lt_irrefl d h2
            · exact h)
        rw [hrec]
        simp [List.zip_cons_cons]
      · -- t < d : no event at this sample
        have htd : t < d := htlt d hdts'
        have hF0 : (d :: ds').countP (fun e => decide (e ≤ t)) = 0 :=
          List.countP_eq_zero.mpr (fun a ha => by
            rcases List.mem_cons.mp ha with rfl | ha
            · simpa using not_le.mpr htd
            · simpa using not_le.mpr (lt_trans htd (hdlt a ha)))
        rw [List.map_cons, c2dWalk]
        simp only [hF0]
        rw [if_neg (by omega)]
        have harg : ((c0 + 0 : ℕ) : ℤ) = ((c0 : ℕ) : ℤ) := by norm_num
        rw [show c0 + 0 = c0 from rfl]
        exact walk_spec ts' (d :: ds') (v :: vs') c0 w0 hlen hts'' hds
          (fun d' hd' => by
            rcases List.mem_cons.mp (hmem d' hd') with h | h
            · exfalso
              have h2 : d ≤ d' := by
                rcases List.mem_cons.mp hd' with h2 | h2
                · exact h2 ▸ le_refl d
                · exact le_of_lt (hdlt d' h2)
              rw [h] at h2
              exact absurd h2 (not_le.mpr htd)
            · exact h)


lemma foldl_min_eq (l : List ℕ) : ∀ c : ℕ, (∀ x ∈ l, c ≤ x) → l.foldl min c = c := by
  induction l with
  | nil => intro c _; rfl
  | cons x rest ih =>
      intro c h
      rw [List.foldl_cons, min_eq_left (h x (List.mem_cons_self x rest))]
      exact ih c (fun y hy => h y (List.mem_cons_of_mem x hy))

lemma zip_map_triple {α β γ : Type} (ts : List α) (f : α → β) (g : α → γ) :
    ts.zip ((ts.map f).zip (ts.map g)) = ts.map (fun t => (t, f t, g t)) := by
  induction ts with
  | nil => rfl
  | cons t rest ih => simp [ih]

/-- C1 (amended): the round-trip holds under the stated hypotheses
(strictly increasing discrete times, each occurring in the strictly
increasing continuous times array) strengthened by: the discrete list is
nonempty and its first time equals the first sample time (so no sample
precedes every event).  Then the composition reproduces
`(discrete_times, discrete_values)` exactly (in particular up to sort
order). -/
theorem roundtrip_amended (times dts : List ℚ) (dvs : List String)
    (hlen : dts.length = dvs.length)
    (htimes : List.Chain' (· < ·) times)
    (hdts : List.Chain' (· < ·) dts)
    (hmem : ∀ d ∈ dts, d ∈ times)
    (hne : dts ≠ [])
    (hfirst : dts.head? = times.head?) :
    continuous_to_discrete times (discrete_to_continuous times dts dvs).1
        (discrete_to_continuous times dts dvs).2 = some (dts, dvs.map some) := by
  cases dts with
  | nil => exact absurd rfl hne
  | cons d0 dts' =>
  cases times with
  | nil => exact absurd (hmem d0 (List.mem_cons_self d0 dts')) (List.not_mem_nil d0)
  | cons t0 times' =>
  have ht0 : t0 = d0 := by
    simp only [List.head?] at hfirst
    exact (Option.some.injEq .. ▸ hfirst).symm
  subst ht0
  -- abbreviations
  have hpwd := List.chain'_iff_pairwise.mp hdts
  have hpwt := List.chain'_iff_pairwise.mp htimes
  have hdlt : ∀ d' ∈ dts', t0 < d' := (List.pairwise_cons.mp hpwd).1
  have htlt : ∀ t' ∈ times', t0 < t' := (List.pairwise_cons.mp hpwt).1
  have hge : ∀ t ∈ t0 :: times', t0 ≤ t := by
    intro t ht
    rcases List.mem_cons.mp ht with rfl | ht
    · exact le_refl t
    · exact le_of_lt (htlt t ht)
  have hFpos : ∀ t ∈ t0 :: times', 0 < (t0 :: dts').countP (fun d => decide (d ≤ t)) := by
    intro t ht
    exact List.countP_pos_iff.mpr ⟨t0, List.mem_cons_self t0 dts', by simpa using hge t ht⟩
  have hsort : sortEvents ((t0 :: dts').zip dvs) = (t0 :: dts').zip dvs :=
    sortEvents_eq_self _ (pairwise_zip_of_fst (hpwd.imp le_of_lt))
  -- per-sample characterization of the d2c output
  have hassign : ∀ t ∈ t0 :: times',
      assignFrom t 0 (0, none) (sortEvents ((t0 :: dts').zip dvs)) =
        ((t0 :: dts').countP (fun d => decide (d ≤ t)),
         dvs[(t0 :: dts').countP (fun d => decide (d ≤ t)) - 1]?) := by
    intro t ht
    rw [hsort, assignFrom_eq_lastHit,
      lastHit_sorted_pos (t := t) (t0 :: dts') dvs 0 hlen hdts (hFpos t ht)]
    have hlt : (t0 :: dts').countP (fun d => decide (d ≤ t)) - 1 < dvs.length := by
      have h1 := List.countP_le_length (p := fun d => decide (d ≤ t)) (l := t0 :: dts')
      have h2 := hFpos t ht
      omega
    rw [List.getElem?_eq_getElem hlt]
    simp only [Option.map_some']
    have h2 := hFpos t ht
    congr 1
    omega
  -- the two continuous arrays
  simp only [discrete_to_continuous]
  -- length check passes
  rw [continuous_to_discrete, if_pos (by simp)]
  rw [zip_map_triple]
  -- the seed index: np.min(indices) = 1
  have hf1 : ∀ t ∈ t0 :: times',
      (assignFrom t 0 (0, none) (sortEvents ((t0 :: dts').zip dvs))).1 =
        (t0 :: dts').countP (fun d => decide (d ≤ t)) := by
    intro t ht; rw [hassign t ht]
  have hFt0 : (t0 :: dts').countP (fun d => decide (d ≤ t0)) = 1 := by
    rw [List.countP_cons]
    have h0 : dts'.countP (fun d => decide (d ≤ t0)) = 0 :=
      List.countP_eq_zero.mpr (fun a ha => by simpa using not_le.mpr (hdlt a ha))
    simp [h0]
  have hmin : npMinN (List.map
      (fun t => (assignFrom t 0 (0, none) (sortEvents ((t0 :: dts').zip dvs))).1)
      (t0 :: times')) = 1 := by
    rw [List.map_cons, npMinN]
    rw [hf1 t0 (List.mem_cons_self t0 times'), hFt0]
    refine foldl_min_eq _ 1 ?_
    intro m hm
    obtain ⟨t, ht, hft⟩ := List.mem_map.mp hm
    rw [hf1 t (List.mem_cons_of_mem t0 ht)] at hft
    rw [← hft]
    exact hFpos t (List.mem_cons_of_mem t0 ht)
  rw [hmin]
  -- rewrite the walked triple into the walk_spec shape
  have hmap : List.map (fun t =>
      (t, (assignFrom t 0 (0, none) (sortEvents ((t0 :: dts').zip dvs))).1,
       (assignFrom t 0 (0, none) (sortEvents ((t0 :: dts').zip dvs))).2)) (t0 :: times') =
    List.map (fun t =>
      (t, 0 + (t0 :: dts').countP (fun d => decide (d ≤ t)),
       if (t0 :: dts').countP (fun d => decide (d ≤ t)) = 0 then none
       else dvs[(t0 :: dts').countP (fun d => decide (d ≤ t)) - 1]?)) (t0 :: times') := by
    refine List.map_congr_left ?_
    intro t ht
    rw [hassign t ht]
    have h2 := hFpos t ht
    rw [Nat.zero_add, if_neg (by omega)]
  rw [show ((1 : ℕ) : ℤ) - 1 = ((0 : ℕ) : ℤ) by norm_num, hmap,
    walk_spec (t0 :: times') (t0 :: dts') dvs 0 none hlen htimes hdts hmem]
  have hlsome : (t0 :: dts').length = (List.map some dvs).length := by
    rw [List.length_map]; exact hlen
  simp only [List.map_fst_zip _ _ (le_of_eq hlsome),
    List.map_snd_zip _ _ (le_of_eq hlsome.symm)]


/-- C1 (counterexample): the round-trip claim fails as stated: with
`times = [0, 0.1, 0.2, 0.3]` and the single discrete event `(0.2, Saccade)`,
`continuous_to_discrete` applied to the `discrete_to_continuous` output emits
an extra leading `(0, sentinel)` entry (the walk is seeded with
`min(indices) - 1`, so samples before the first event form an emitted
segment), and the resulting pair list is not a permutation of the
original. -/
theorem roundtrip_cex :
    continuous_to_discrete [0, 1/10, 2/10, 3/10]
        (discrete_to_continuous [0, 1/10, 2/10, 3/10] [2/10] ["Saccade"]).1
        (discrete_to_continuous [0, 1/10, 2/10, 3/10] [2/10] ["Saccade"]).2 =
      some ([0, 2/10], [none, some "Saccade"]) ∧
    ¬ ([((0:ℚ), (none : Option String)), (2/10, some "Saccade")].Perm
        [((2:ℚ)/10, (some "Saccade" : Option String))]) := by
  constructor
  · norm_num [discrete_to_continuous, sortEvents, insEv, assignFrom,
      continuous_to_discrete, npMinN, c2dWalk]
  · intro h
    simpa using h.length_eq

/-- Witness for `roundtrip_amended` at `times = [0, 0.1, 0.2]`,
`dts = [0, 0.2]`, `dvs = [Fixation, Saccade]`. -/
theorem roundtrip_amended_witness :
    continuous_to_discrete [0, 1/10, 2/10]
        (discrete_to_continuous [0, 1/10, 2/10] [0, 2/10] ["Fixation", "Saccade"]).1
        (discrete_to_continuous [0, 1/10, 2/10] [0, 2/10] ["Fixation", "Saccade"]).2 =
      some ([0, 2/10], [some "Fixation", some "Saccade"]) :=
  roundtrip_amended [0, 1/10, 2/10] [0, 2/10] ["Fixation", "Saccade"] rfl
    (by norm_num [List.chain'_cons]) (by norm_num [List.chain'_cons])
    (by intro d hd
        rcases List.mem_cons.mp hd with rfl | hd
        · exact List.mem_cons_self _ _
        · rcases List.mem_cons.mp hd with rfl | hd
          · exact List.mem_cons_of_mem _ (List.mem_cons_of_mem _ (List.mem_cons_self _ _))
          · exact absurd hd (List.not_mem_nil d))
    (by simp) rfl

/-- C10: because `classify_velocity` pads the per-step displacement array
with a trailing zero, for every input with a resolved positive sampling rate
and a nonnegative threshold the final sample is labeled `Fixation`,
regardless of the gaze data. -/
theorem velocity_last_fixation (x y : List ℚ) (time : TimeArg) (threshold : ℚ)
    (segs : List ℕ) (cls : List String) (ts : List ℚ) (f : ℚ)
    (hget : get_time x.length time = .ok (ts, some f))
    (hf : 0 < f) (hth : 0 ≤ threshold)
    (h : classify_velocity x y time threshold = some (segs, cls)) :
    cls.getLast? = some "Fixation" := by
  unfold classify_velocity at h
  by_cases hg : x.length = 0 ∨ x.length ≠ y.length
  · rw [if_pos hg] at h; cases h
  · rw [if_neg hg, hget] at h
    simp only [Option.some.injEq, Prod.mk.injEq] at h
    rw [← h.2]
    rw [List.getLast?_map]
    have hlast : (velsSq x y).getLast? = some 0 := by
      unfold velsSq
      rw [List.getLast?_append]
      rfl
    rw [hlast]
    simp only [Option.map_some']
    have hns : is_saccade (sampleThresh (some f) threshold) 0 = false := by
      unfold is_saccade sampleThresh
      simp only [Option.map_some']
      have h1 : ¬ (threshold / f < 0) := not_lt.mpr (div_nonneg hth (le_of_lt hf))
      have h2 : ¬ ((threshold / f)^2 < 0) := not_lt.mpr (sq_nonneg _)
      simp [h1, h2]
    rw [hns]
    rfl

/-- Witness for `velocity_last_fixation` at `x = [0,5]`, `y = [0,0]`, a 1 Hz
rate and threshold `0` (classes `[Saccade, Fixation]`). -/
theorem velocity_last_fixation_witness :
    (["Saccade", "Fixation"] : List String).getLast? = some "Fixation" :=
  velocity_last_fixation [0, 5] [0, 0] (.rate 1) 0 [0, 1] ["Saccade", "Fixation"]
    [0, 1] 1
    (by norm_num [get_time, sfreq_to_times, Except.map, List.range_succ])
    (by norm_num) (le_refl 0)
    (by norm_num [classify_velocity, get_time, sfreq_to_times, Except.map, velsSq,
          sampleThresh, is_saccade, groupSegments, segmentsFrom]
        decide)



lemma npMaxQ_replicate (m : ℕ) (c : ℚ) : npMaxQ (List.replicate m c) = if m = 0 then 0 else c := by
  cases m with
  | zero => rfl
  | succ k =>
      simp only [List.replicate_succ, npMaxQ, Nat.succ_ne_zero, if_false]
      induction k with
      | zero => rfl
      | succ j ih => simpa [List.replicate_succ, max_self] using ih

lemma npMinQ_replicate (m : ℕ) (c : ℚ) : npMinQ (List.replicate m c) = if m = 0 then 0 else c := by
  cases m with
  | zero => rfl
  | succ k =>
      simp only [List.replicate_succ, npMinQ, Nat.succ_ne_zero, if_false]
      induction k with
      | zero => rfl
      | succ j ih => simpa [List.replicate_succ, min_self] using ih

lemma winDisp_const (N : ℕ) (cx cy : ℚ) (a b : ℕ) :
    winDisp (List.replicate N cx) (List.replicate N cy) a b = 0 := by
  unfold winDisp slice dispOf
  rw [List.drop_replicate, List.take_replicate, List.drop_replicate, List.take_replicate]
  rw [npMaxQ_replicate, npMinQ_replicate, npMaxQ_replicate, npMinQ_replicate]
  split <;> ring

lemma extendStepsF_const (N : ℕ) (cx cy th : ℚ) (s : ℕ) (hth : 0 ≤ th) :
    ∀ (fuel istop : ℕ), N - istop < fuel →
      extendStepsF (List.replicate N cx) (List.replicate N cy) th s fuel istop =
        N - istop := by
  intro fuel
  induction fuel with
  | zero => intro istop h; omega
  | succ k ih =>
      intro istop h
      rw [extendStepsF_succ]
      by_cases hlt : istop < N
      · rw [if_pos ⟨by rw [winDisp_const]; exact hth, by simpa using hlt⟩]
        rw [ih (istop + 1) (by omega)]
        omega
      · rw [if_neg (by simp only [List.length_replicate]; omega)]
        omega

lemma extendFix_const (N : ℕ) (cx cy th : ℚ) (s istop : ℕ) (hth : 0 ≤ th)
    (histop : istop ≤ N) :
    extendFix (List.replicate N cx) (List.replicate N cy) th s istop = N := by
  unfold extendFix
  rw [List.length_replicate, extendStepsF_const N cx cy th s hth (N + 1) istop (by omega)]
  omega

lemma writeRange_full {α : Type} : ∀ (l : List α) (b : ℕ) (v : α), l.length ≤ b →
    writeRange l 0 b v = List.replicate l.length v := by
  intro l
  induction l with
  | nil => intro b v _; rfl
  | cons h t ih =>
      intro b v hb
      simp only [List.length_cons] at hb
      rw [writeRange, if_pos ⟨rfl, by omega⟩]
      simp only [List.length_cons, List.replicate_succ]
      congr 1
      have := ih (b - 1) v (by omega)
      simpa using this

/-- C9: a constant `(x, y)` signal whose length is at least the window
sample count (with at least one sample per window and a nonnegative
dispersion threshold) yields exactly one `Fixation` segment — a single index
value `1` with label `Fixation` — spanning the entire array. -/
theorem dispersion_const_fixation (N : ℕ) (cx cy th : ℚ) (n : ℕ)
    (hth : 0 ≤ th) (hn : 1 ≤ n) (hnN : n ≤ N) :
    classifyDispersionCore (List.replicate N cx) (List.replicate N cy) th n =
      (List.replicate N 1, List.replicate N "Fixation") := by
  unfold classifyDispersionCore
  rw [List.length_replicate, dispLoopF_succ]
  rw [if_pos (by simp only [List.length_replicate]; omega)]
  rw [if_pos (by rw [winDisp_const]; exact hth)]
  rw [extendFix_const N cx cy th 0 n hth hnN]
  rw [writeRange_full _ N _ (by simp), writeRange_full _ N _ (by simp)]
  simp only [List.length_replicate]
  obtain ⟨M, rfl⟩ : ∃ M, N = M + 1 := ⟨N - 1, by omega⟩
  rw [dispLoopF_succ, if_neg (by simp only [List.length_replicate]; omega)]



/-- Witness for `dispersion_const_fixation` at `N = 2`, constant position
`(3, 4)`, threshold `0`, window count `1`. -/
theorem dispersion_const_fixation_witness :
    classifyDispersionCore (List.replicate 2 (3:ℚ)) (List.replicate 2 (4:ℚ)) 0 1 =
      (List.replicate 2 1, List.replicate 2 "Fixation") :=
  dispersion_const_fixation 2 3 4 0 1 (le_refl 0) (by norm_num) (by norm_num)

lemma foldl_min_le_q : ∀ (l : List ℚ) (c : ℚ),
    l.foldl min c ≤ c ∧ ∀ x ∈ l, l.foldl min c ≤ x := by
  intro l
  induction l with
  | nil => intro c; exact ⟨le_refl c, by simp⟩
  | cons x rest ih =>
      intro c
      rw [List.foldl_cons]
      refine ⟨le_trans (ih (min c x)).1 (min_le_left c x), ?_⟩
      intro z hz
      rcases List.mem_cons.mp hz with rfl | hz
      · exact le_trans (ih (min c z)).1 (min_le_right c z)
      · exact (ih (min c x)).2 z hz

lemma npMinQ_le_mem (l : List ℚ) (v : ℚ) (hv : v ∈ l) : npMinQ l ≤ v := by
  cases l with
  | nil => cases hv
  | cons a rest =>
      rw [npMinQ]
      rcases List.mem_cons.mp hv with rfl | hv
      · exact (foldl_min_le_q rest v).1
      · exact (foldl_min_le_q rest a).2 v hv

lemma medianQ_ge (l : List ℚ) (m b : ℚ) (hm : medianQ l = some m)
    (hb : ∀ v ∈ l, b ≤ v) : b ≤ m := by
  by_cases hl : l = []
  · subst hl; simp [medianQ] at hm
  · rw [medianQ, if_neg hl] at hm
    have hperm := List.perm_insertionSort (· ≤ ·) l
    have hs : ∀ v ∈ l.insertionSort (· ≤ ·), b ≤ v :=
      fun v hv => hb v (hperm.mem_iff.mp hv)
    have hslen : (l.insertionSort (· ≤ ·)).length = l.length := hperm.length_eq
    have hn : 0 < l.length := List.length_pos.mpr hl
    have hgetD : ∀ i, i < l.length → b ≤ (l.insertionSort (· ≤ ·)).getD i 0 := by
      intro i hi
      have hi' : i < (l.insertionSort (· ≤ ·)).length := by omega
      rw [List.getD_eq_getElem?_getD, List.getElem?_eq_getElem hi']
      exact hs _ (List.getElem_mem hi')
    by_cases hpar : l.length % 2 = 1
    · rw [if_pos hpar] at hm
      have h1 := hgetD (l.length / 2) (by omega)
      simp only [Option.some.injEq] at hm
      rw [← hm]
      exact h1
    · rw [if_neg hpar] at hm
      simp only [Option.some.injEq] at hm
      have h1 := hgetD (l.length / 2 - 1) (by omega)
      have h2 := hgetD (l.length / 2) (by omega)
      rw [← hm]
      linarith



lemma madIterFuel_suff (vels : List ℚ) :
    ∀ (fuel : ℕ) (th : ℚ), (⌈th - npMinQ vels⌉).toNat < fuel →
      ∃ r, madIterFuel fuel vels th = some r := by
  intro fuel
  induction fuel with
  | zero => intro th h; omega
  | succ k ih =>
      intro th hfuel
      rw [madIterFuel_succ]
      cases hmd : medianQ (vels.filter (fun v => v < th)) with
      | none => exact ⟨none, by simp [hmd]⟩
      | some m =>
          simp only [hmd]
          set mad := (medianQ ((vels.filter (fun v => v < th)).map
            (fun v => |v - m|))).getD 0 with hmad_def
          set th1 := m + 3 * (148/100) * mad with hth1_def
          by_cases hcont : 1 < th - th1
          · rw [if_pos hcont]
            have hmge : npMinQ vels ≤ m := by
              refine medianQ_ge _ m (npMinQ vels) hmd ?_
              intro v hv
              exact npMinQ_le_mem vels v (List.mem_of_mem_filter hv)
            have hmadge : 0 ≤ mad := by
              rw [hmad_def]
              cases hmd2 : medianQ ((vels.filter (fun v => v < th)).map
                  (fun v => |v - m|)) with
              | none => simp
              | some mm =>
                  simp only [Option.getD_some]
                  refine medianQ_ge _ mm 0 hmd2 ?_
                  intro v hv
                  obtain ⟨w, _, rfl⟩ := List.mem_map.mp hv
                  exact abs_nonneg _
            have hth1ge : npMinQ vels ≤ th1 := by
              rw [hth1_def]
              nlinarith
            refine ih th1 ?_
            have hle : ⌈th1 - npMinQ vels⌉ ≤ ⌈th - npMinQ vels⌉ - 1 := by
              rw [← Int.ceil_sub_one]
              exact Int.ceil_le_ceil (by linarith)
            have hnn : 0 ≤ ⌈th1 - npMinQ vels⌉ := Int.ceil_nonneg (by linarith)
            have hpos : 0 < ⌈th - npMinQ vels⌉ := by omega
            have hlt : (⌈th1 - npMinQ vels⌉).toNat < (⌈th - npMinQ vels⌉).toNat :=
              (Int.toNat_lt_toNat hpos).mpr (by omega)
            omega
          · exact ⟨some th1, by rw [if_neg hcont]⟩

/-- C6 (amended): the MAD iteration terminates on every input (the threshold
drops by more than 1 per continued iteration while staying at or above the
population minimum, and an empty restricted population ends the loop with a
NaN), and `madFuel` iterations always suffice; the claimed bound
`result ≤ th_0` is false (see `mad_le_th0_cex`). -/
theorem mad_terminates (vels : List ℚ) (th : ℚ) :
    ∃ r, madIterFuel (madFuel vels th) vels th = some r :=
  madIterFuel_suff vels (madFuel vels th) th (by unfold madFuel; omega)

lemma writeRange_length {α : Type} :
    ∀ (l : List α) (a b : ℕ) (v : α), (writeRange l a b v).length = l.length := by
  intro l
  induction l with
  | nil => intro a b v; rfl
  | cons h t ih => intro a b v; simp [writeRange, ih]

lemma writeRange_getElem? {α : Type} :
    ∀ (l : List α) (a b : ℕ) (v : α) (p : ℕ),
      (writeRange l a b v)[p]? =
        if a ≤ p ∧ p < b ∧ p < l.length then some v else l[p]? := by
  intro l
  induction l with
  | nil => intro a b v p; simp [writeRange]
  | cons h t ih =>
      intro a b v p
      rw [writeRange]
      cases p with
      | zero =>
          by_cases hc : a = 0 ∧ 0 < b
          · have hcond : a ≤ 0 ∧ 0 < b ∧ 0 < (h :: t).length := ⟨by omega, by omega, by simp⟩
            rw [List.getElem?_cons_zero, if_pos hc, if_pos hcond]
          · have hcond : ¬ (a ≤ 0 ∧ 0 < b ∧ 0 < (h :: t).length) := by
              simp only [List.length_cons]
              omega
            rw [List.getElem?_cons_zero, if_neg hc, if_neg hcond, List.getElem?_cons_zero]
      | succ q =>
          rw [List.getElem?_cons_succ, ih]
          by_cases hc : a - 1 ≤ q ∧ q < b - 1 ∧ q < t.length
          · rw [if_pos hc, if_pos (by simp only [List.length_cons]; omega)]
          · rw [if_neg hc, if_neg (by simp only [List.length_cons]; omega),
              List.getElem?_cons_succ]

lemma foldl_max_facts : ∀ (l : List ℚ) (c : ℚ),
    (l.foldl max c = c ∨ l.foldl max c ∈ l) ∧
    c ≤ l.foldl max c ∧ ∀ x ∈ l, x ≤ l.foldl max c := by
  intro l
  induction l with
  | nil => intro c; exact ⟨Or.inl rfl, le_refl c, by simp⟩
  | cons x rest ih =>
      intro c
      rw [List.foldl_cons]
      obtain ⟨hmem, hle, hbound⟩ := ih (max c x)
      refine ⟨?_, le_trans (le_max_left c x) hle, ?_⟩
      · rcases hmem with hm | hm
        · rcases max_choice c x with hcx | hcx
          · exact Or.inl (by rw [hm, hcx])
          · exact Or.inr (by rw [hm, hcx]; exact List.mem_cons_self x rest)
        · exact Or.inr (List.mem_cons_of_mem x hm)
      · intro z hz
        rcases List.mem_cons.mp hz with rfl | hz
        · exact le_trans (le_max_right c z) hle
        · exact hbound z hz

lemma foldl_min_facts : ∀ (l : List ℚ) (c : ℚ),
    (l.foldl min c = c ∨ l.foldl min c ∈ l) ∧
    l.foldl min c ≤ c ∧ ∀ x ∈ l, l.foldl min c ≤ x := by
  intro l
  induction l with
  | nil => intro c; exact ⟨Or.inl rfl, le_refl c, by simp⟩
  | cons x rest ih =>
      intro c
      rw [List.foldl_cons]
      obtain ⟨hmem, hle, hbound⟩ := ih (min c x)
      refine ⟨?_, le_trans hle (min_le_left c x), ?_⟩
      · rcases hmem with hm | hm
        · rcases min_choice c x with hcx | hcx
          · exact Or.inl (by rw [hm, hcx])
          · exact Or.inr (by rw [hm, hcx]; exact List.mem_cons_self x rest)
        · exact Or.inr (List.mem_cons_of_mem x hm)
      · intro z hz
        rcases List.mem_cons.mp hz with rfl | hz
        · exact le_trans hle (min_le_right c z)
        · exact hbound z hz

lemma npMaxQ_mem (l : List ℚ) (hne : l ≠ []) : npMaxQ l ∈ l := by
  cases l with
  | nil => exact absurd rfl hne
  | cons a rest =>
      rw [npMaxQ]
      rcases (foldl_max_facts rest a).1 with hm | hm
      · rw [hm]; exact List.mem_cons_self a rest
      · exact List.mem_cons_of_mem a hm

lemma le_npMaxQ (l : List ℚ) (v : ℚ) (hv : v ∈ l) : v ≤ npMaxQ l := by
  cases l with
  | nil => cases hv
  | cons a rest =>
      rw [npMaxQ]
      rcases List.mem_cons.mp hv with rfl | hv
      · exact (foldl_max_facts rest v).2.1
      · exact (foldl_max_facts rest a).2.2 v hv

lemma npMinQ_mem (l : List ℚ) (hne : l ≠ []) : npMinQ l ∈ l := by
  cases l with
  | nil => exact absurd rfl hne
  | cons a rest =>
      rw [npMinQ]
      rcases (foldl_min_facts rest a).1 with hm | hm
      · rw [hm]; exact List.mem_cons_self a rest
      · exact List.mem_cons_of_mem a hm



lemma npMinQ_le (l : List ℚ) (v : ℚ) (hv : v ∈ l) : npMinQ l ≤ v := npMinQ_le_mem l v hv

lemma slice_length (l : List ℚ) (a b : ℕ) :
    (slice l a b).length = min (b - a) (l.length - a) := by
  simp [slice, List.length_take, List.length_drop]

lemma slice_getElem? (l : List ℚ) (a b j : ℕ) (hj : j < b - a) :
    (slice l a b)[j]? = l[a + j]? := by
  unfold slice
  rw [List.getElem?_take, if_pos hj, List.getElem?_drop]

lemma slice_subset (l : List ℚ) (s a b e : ℕ) (hsa : s ≤ a) (hbe : b ≤ e) :
    ∀ v ∈ slice l a b, v ∈ slice l s e := by
  intro v hv
  obtain ⟨j, hj⟩ := List.mem_iff_getElem?.mp hv
  have hjlt : j < (slice l a b).length := by
    obtain ⟨h, _⟩ := List.getElem?_eq_some.mp hj
    exact h
  rw [slice_length] at hjlt
  rw [slice_getElem? l a b j (by omega)] at hj
  refine List.mem_iff_getElem?.mpr ⟨(a - s) + j, ?_⟩
  rw [slice_getElem? l s e _ (by omega)]
  rw [show s + ((a - s) + j) = a + j by omega]
  exact hj

lemma winDisp_mono (x y : List ℚ) (s a b e : ℕ)
    (hsa : s ≤ a) (hab : a < b) (hbe : b ≤ e)
    (hax : a < x.length) (hay : a < y.length) :
    winDisp x y a b ≤ winDisp x y s e := by
  have hxne : slice x a b ≠ [] := by
    have := slice_length x a b
    intro hc
    rw [hc] at this
    simp at this
    omega
  have hyne : slice y a b ≠ [] := by
    have := slice_length y a b
    intro hc
    rw [hc] at this
    simp at this
    omega
  have hsubx := slice_subset x s a b e hsa hbe
  have hsuby := slice_subset y s a b e hsa hbe
  have h1 : npMaxQ (slice x a b) ≤ npMaxQ (slice x s e) :=
    le_npMaxQ _ _ (hsubx _ (npMaxQ_mem _ hxne))
  have h2 : npMinQ (slice x s e) ≤ npMinQ (slice x a b) :=
    npMinQ_le _ _ (hsubx _ (npMinQ_mem _ hxne))
  have h3 : npMaxQ (slice y a b) ≤ npMaxQ (slice y s e) :=
    le_npMaxQ _ _ (hsuby _ (npMaxQ_mem _ hyne))
  have h4 : npMinQ (slice y s e) ≤ npMinQ (slice y a b) :=
    npMinQ_le _ _ (hsuby _ (npMinQ_mem _ hyne))
  unfold winDisp dispOf
  linarith



lemma extendStepsF_passed (x y : List ℚ) (th : ℚ) (s : ℕ) :
    ∀ (fuel istop j : ℕ), istop ≤ j →
      j < istop + extendStepsF x y th s fuel istop →
      winDisp x y s j ≤ th := by
  intro fuel
  induction fuel with
  | zero => intro istop j h1 h2; rw [extendStepsF] at h2; omega
  | succ k ih =>
      intro istop j h1 h2
      rw [extendStepsF_succ] at h2
      by_cases hc : winDisp x y s istop ≤ th ∧ istop < x.length
      · rw [if_pos hc] at h2
        rcases Nat.eq_or_lt_of_le h1 with rfl | h1'
        · exact hc.1
        · exact ih (istop + 1) j h1' (by omega)
      · rw [if_neg hc] at h2
        omega

lemma extendStepsF_le (x y : List ℚ) (th : ℚ) (s : ℕ) :
    ∀ (fuel istop : ℕ), extendStepsF x y th s fuel istop ≤ x.length - istop := by
  intro fuel
  induction fuel with
  | zero => intro istop; rw [extendStepsF]; omega
  | succ k ih =>
      intro istop
      rw [extendStepsF_succ]
      by_cases hc : winDisp x y s istop ≤ th ∧ istop < x.length
      · rw [if_pos hc]
        have := ih (istop + 1)
        omega
      · rw [if_neg hc]
        omega

lemma extendFix_ge (x y : List ℚ) (th : ℚ) (s istop : ℕ) :
    istop ≤ extendFix x y th s istop := Nat.le_add_right _ _

lemma extendFix_le_length (x y : List ℚ) (th : ℚ) (s istop : ℕ)
    (h : istop ≤ x.length) : extendFix x y th s istop ≤ x.length := by
  unfold extendFix
  have := extendStepsF_le x y th s (x.length + 1) istop
  omega

lemma extendFix_passed (x y : List ℚ) (th : ℚ) (s istop j : ℕ)
    (h1 : istop ≤ j) (h2 : j < extendFix x y th s istop) :
    winDisp x y s j ≤ th :=
  extendStepsF_passed x y th s (x.length + 1) istop j h1 h2



lemma dispLoopF_inv (x y : List ℚ) (th : ℚ) (n : ℕ) (hy : y.length = x.length) :
    ∀ (fuel : ℕ) (segs : List ℕ) (cls : List String) (i_start i_stop seg_idx : ℕ),
      segs.length = x.length → cls.length = x.length →
      (∀ p, i_start ≤ p → p < x.length → cls[p]? = some "Saccade") →
      (∀ (p s : ℕ), segs[p]? = some s → s ≤ seg_idx) →
      FixSpanBound x y th segs cls →
      FixSpanBound x y th (dispLoopF x y th n fuel segs cls i_start i_stop seg_idx).1
        (dispLoopF x y th n fuel segs cls i_start i_stop seg_idx).2 := by
  intro fuel
  induction fuel with
  | zero => intro segs cls i_start i_stop seg_idx _ _ _ _ hInv; exact hInv
  | succ k ih =>
      intro segs cls i_start i_stop seg_idx hslen hclen hSac hBound hInv
      rw [dispLoopF_succ]
      by_cases hguard : i_stop ≤ x.length ∧ i_start < i_stop
      · rw [if_pos hguard]
        by_cases hfix : winDisp x y i_start i_stop ≤ th
        · rw [if_pos hfix]
          have he_ge : i_stop ≤ extendFix x y th i_start i_stop :=
            extendFix_ge x y th i_start i_stop
          have he_le : extendFix x y th i_start i_stop ≤ x.length :=
            extendFix_le_length x y th i_start i_stop hguard.1
          set e := extendFix x y th i_start i_stop with he_def
          have hspan : ∀ j, i_start < j → j < e → winDisp x y i_start j ≤ th := by
            intro j hj1 hj2
            by_cases hj3 : j < i_stop
            · exact le_trans (winDisp_mono x y i_start i_start j i_stop (le_refl _)
                hj1 (le_of_lt hj3) (by omega) (by omega)) hfix
            · exact extendFix_passed x y th i_start i_stop j (by omega) hj2
          apply ih
          · rw [writeRange_length]; exact hslen
          · rw [writeRange_length]; exact hclen
          · intro p hp hplen
            rw [writeRange_getElem?, if_neg (by omega)]
            exact hSac p (by omega) hplen
          · intro p s hs
            rw [writeRange_getElem?] at hs
            by_cases hc : i_start ≤ p ∧ p < e ∧ p < segs.length
            · rw [if_pos hc] at hs
              injection hs with hs'
              omega
            · rw [if_neg hc] at hs
              have := hBound p s hs
              omega
          · intro a b hab hble hconst
            by_cases hcase1 : b ≤ i_start
            · refine hInv a b hab hble ?_
              intro p hp1 hp2
              have h1 := hconst p hp1 hp2
              rw [writeRange_getElem?, if_neg (by omega),
                  writeRange_getElem?, if_neg (by omega),
                  writeRange_getElem?, if_neg (by omega)] at h1
              exact h1
            · by_cases hcase2 : i_start ≤ a
              · have hble2 : b ≤ e := by
                  by_contra hbe
                  have hp := (hconst (b - 1) (by omega) (by omega)).1
                  rw [writeRange_getElem?, if_neg (by omega)] at hp
                  rw [hSac (b - 1) (by omega) (by omega)] at hp
                  simp at hp
                have h1 : winDisp x y a (b-1) ≤ winDisp x y i_start (b-1) :=
                  winDisp_mono x y i_start a (b-1) (b-1) hcase2 (by omega) (le_refl _)
                    (by omega) (by omega)
                exact le_trans h1 (hspan (b-1) (by omega) (by omega))
              · exfalso
                have hsegA := (hconst (i_start - 1) (by omega) (by omega)).2
                have hsegB := (hconst i_start (by omega) (by omega)).2
                rw [writeRange_getElem?, if_neg (by omega)] at hsegA
                rw [writeRange_getElem?,
                  if_pos ⟨le_refl i_start, by omega, by omega⟩] at hsegB
                rw [← hsegB] at hsegA
                have := hBound (i_start - 1) (seg_idx + 1) hsegA
                omega
        · rw [if_neg hfix]
          apply ih
          · rw [writeRange_length]; exact hslen
          · exact hclen
          · intro p hp hplen
            exact hSac p (by omega) hplen
          · intro p s hs
            rw [writeRange_getElem?] at hs
            by_cases hc : i_start ≤ p ∧ p < i_stop ∧ p < segs.length
            · rw [if_pos hc] at hs
              injection hs with hs'
              omega
            · rw [if_neg hc] at hs
              exact hBound p s hs
          · intro a b hab hble hconst
            have hble2 : b ≤ i_start := by
              by_contra hbi
              have hp := (hconst (b - 1) (by omega) (by omega)).1
              rw [hSac (b - 1) (by omega) (by omega)] at hp
              simp at hp
            refine hInv a b hab hble ?_
            intro p hp1 hp2
            have h1 := hconst p hp1 hp2
            rw [writeRange_getElem?, if_neg (by omega),
                writeRange_getElem?, if_neg (by omega)] at h1
            exact h1
      · rw [if_neg hguard]
        exact hInv



/-- C5 (amended): in `classify_dispersion` the absorbing loop increments
`i_stop` before re-checking the dispersion, so the span marked `Fixation`
includes the first sample that broke the bound; what holds is: every
interval of samples sharing one segment ordinal and all labeled `Fixation`
has dispersion at most the threshold once its final sample is removed
(`FixSpanBound`); maximal runs of the `Fixation` label alone can merge
adjacent spans and satisfy no dispersion bound at all. -/
theorem idt_fixation_span_bound (x y : List ℚ) (th : ℚ) (n : ℕ)
    (segs : List ℕ) (cls : List String)
    (hy : y.length = x.length) (_hn : 1 ≤ n)
    (hout : classifyDispersionCore x y th n = (segs, cls)) :
    FixSpanBound x y th segs cls := by
  have hmain := dispLoopF_inv x y th n hy (x.length + 1)
    (List.replicate x.length 0) (List.replicate x.length "Saccade") 0 n 0
    (by simp) (by simp)
    (fun p hp hplen => by rw [List.getElem?_replicate, if_pos hplen])
    (fun p s hs => by
      rw [List.getElem?_replicate] at hs
      by_cases hc : p < x.length
      · rw [if_pos hc] at hs; injection hs with h; omega
      · rw [if_neg hc] at hs; cases hs)
    (fun a b hab hble hconst => by
      exfalso
      have h := (hconst a (le_refl a) (by omega)).1
      rw [List.getElem?_replicate, if_pos (by omega)] at h
      simp at h)
  unfold classifyDispersionCore at hout
  rw [hout] at hmain
  exact hmain

/-- Witness for `idt_fixation_span_bound` on the constant signal
`x = y = [0, 0]` with threshold `0` and window count `1`, whose output is one
Fixation segment `[1, 1]`. -/
theorem idt_fixation_span_bound_witness :
    FixSpanBound (List.replicate 2 (0:ℚ)) (List.replicate 2 (0:ℚ)) 0
      (List.replicate 2 1) (List.replicate 2 "Fixation") :=
  idt_fixation_span_bound _ _ 0 1 _ _ (by simp) (le_refl 1)
    (by
      unfold classifyDispersionCore
      rw [List.length_replicate, dispLoopF_succ,
        if_pos (by simp only [List.length_replicate]; omega),
        if_pos (by rw [winDisp_const]),
        extendFix_const 2 0 0 0 0 1 (le_refl 0) (by omega),
        writeRange_full _ 2 _ (by simp), writeRange_full _ 2 _ (by simp)]
      simp only [List.length_replicate]
      rw [show (2:ℕ) = 1 + 1 from rfl, dispLoopF_succ,
        if_neg (by simp only [List.length_replicate]; omega)])



/-- C5 (counterexample): the claim asserts that every maximal run of
samples labeled `Fixation` has dispersion at most the threshold; with
`x = [0,0,0,5]`, `y = [0,0,0,0]`, a 1 Hz rate, threshold `1` and a 2-second
window the whole array is labeled `Fixation` (one segment), yet its
dispersion is `5 > 1`: the absorbing loop marks `[i_start, i_stop)` after
`i_stop` has already moved one sample past the last compliant window. -/
theorem idt_dispersion_bound_cex :
    classify_dispersion [0,0,0,5] [0,0,0,0] (.rate 1) 1 2 =
      some ([1, 1, 1, 1], ["Fixation", "Fixation", "Fixation", "Fixation"]) ∧
    winDisp [0,0,0,5] [0,0,0,0] 0 4 = 5 ∧
    ¬ (winDisp ([0,0,0,5] : List ℚ) [0,0,0,0] 0 4 ≤ 1) := by
  refine ⟨?_, by norm_num [winDisp, slice, dispOf, npMaxQ, npMinQ],
    by norm_num [winDisp, slice, dispOf, npMaxQ, npMinQ]⟩
  have hn : (⌊(1:ℚ) * 2⌋).toNat = 2 := by norm_num [show Int.toNat 2 = 2 from rfl]
  have he : extendFix [0,0,0,5] [0,0,0,0] 1 0 2 = 4 := by
    rw [extendFix, show (([0,0,0,5] : List ℚ).length + 1) = 4+1 from rfl, extendStepsF_succ,
      if_pos (by norm_num [winDisp, slice, dispOf, npMaxQ, npMinQ]),
      show (4:ℕ) = 3+1 from rfl, extendStepsF_succ,
      if_pos (by norm_num [winDisp, slice, dispOf, npMaxQ, npMinQ]),
      show (3:ℕ) = 2+1 from rfl, extendStepsF_succ,
      if_neg (by norm_num [winDisp, slice, dispOf, npMaxQ, npMinQ])]
  norm_num [classify_dispersion, get_time, sfreq_to_times, Except.map, hn,
    show Int.toNat 2 = 2 from rfl, classifyDispersionCore, List.replicate]
  rw [show (5:ℕ) = 4+1 from rfl, dispLoopF_succ,
    if_pos (by norm_num), if_pos (by norm_num [winDisp, slice, dispOf, npMaxQ, npMinQ]), he]
  norm_num [writeRange]
  rw [show (4:ℕ) = 3+1 from rfl, dispLoopF_succ, if_neg (by norm_num)]

end Cateyes
